import Mathlib

/-!
Verification of the regress-stack repository: a shallow embedding of the
module dependency resolver, the setup/test execution driver
(`src/regress_stack/__main__.py`) and the core utilities
(`src/regress_stack/core/utils.py`), with theorems settling the frozen
claims about the natural-language specification.
-/

set_option maxHeartbeats 1000000

namespace RegressStack

/-! ## Dependency resolver

The resolver (`get_execution_order` in `regress_stack/core/modules.py`) is not
part of the provided sources; only its callers are.  The definitions below are
modelled from the spec, section 4.2. -/

/-- Modelled from the spec: a registered module, as consumed by the resolver
(`regress_stack/core/modules.py` is missing from the sources).  A module has a
unique name, a set of required dependency names and a set of optional
dependency names; dependency sets are carried as lists in a fixed
deterministic (declaration) order, as the spec demands a stable visiting
order. -/
structure Module where
  name : String
  required : List String
  optional : List String
deriving Repr, DecidableEq

/-- Modelled from the spec: the registry snapshot handed to the resolver. -/
abbrev Reg := List Module

/-- Modelled from the spec: find the module with a given name
(`find(name) -> Module or not-found`). -/
def lookupMod (reg : Reg) (n : String) : Option Module :=
  reg.find? (fun m => m.name == n)

/-- Modelled from the spec: the direct dependency names visited for a module,
required dependencies first, then optional dependencies that are present in
the registry; an absent optional dependency is silently ignored. -/
def depNames (reg : Reg) (m : Module) : List String :=
  m.required ++ m.optional.filter (fun o => (lookupMod reg o).isSome)

/-- Modelled from the spec: the edge list of the derived dependency graph.
Edges point from a module to each of its required and present optional
dependencies. -/
def edgeList (reg : Reg) : List (String × String) :=
  reg.flatMap (fun m => (depNames reg m).map (fun d => (m.name, d)))

/-- Modelled from the spec: the dependency-edge relation of the derived
graph. -/
def Edge (reg : Reg) (a b : String) : Prop :=
  (a, b) ∈ edgeList reg

instance (reg : Reg) (a b : String) : Decidable (Edge reg a b) :=
  inferInstanceAs (Decidable ((a, b) ∈ edgeList reg))

/-- Modelled from the spec: the errors of the resolver.  `outOfFuel` is an
artifact of the bounded recursion and is proven unreachable for sufficient
fuel. -/
inductive ResolveError where
  | unknownTarget : ResolveError
  | cyclicDependency : List String → ResolveError
  | missingDependency : String → ResolveError
  | outOfFuel : ResolveError
deriving Repr, DecidableEq

/-- Modelled from the spec: the depth-first topological visit.  `visiting` is
the set of modules currently being visited (for cycle detection), `ns` the
worklist of names to visit at the current level, `out` the output sequence
accumulated so far.  For each name: if it is already in the output it is
skipped; if it is still being visited a cycle is reported; otherwise its
dependencies are visited recursively and the name is appended. -/
def visitMany (reg : Reg) (fuel : Nat) (visiting : List String) (ns : List String)
    (out : List String) : Except ResolveError (List String) :=
  match fuel, ns with
  | _, [] => .ok out
  | 0, _ :: _ => .error .outOfFuel
  | fuel + 1, n :: rest =>
    if n ∈ out then
      visitMany reg (fuel + 1) visiting rest out
    else if n ∈ visiting then
      .error (.cyclicDependency (n :: visiting))
    else
      match lookupMod reg n with
      | none => .error (.missingDependency n)
      | some m =>
        match visitMany reg fuel (n :: visiting) (depNames reg m) out with
        | .error e => .error e
        | .ok out2 => visitMany reg (fuel + 1) visiting rest (out2 ++ [n])
termination_by (fuel, ns.length)

/-- Modelled from the spec: `get_execution_order` / `resolve(all_modules,
target)`.  With a target, the visit starts from the target alone (the
subgraph reachable backward from it); without a target every module of the
registry is visited in declaration order. -/
def resolve (reg : Reg) (target : Option String) : Except ResolveError (List String) :=
  match target with
  | some t =>
    match lookupMod reg t with
    | none => .error .unknownTarget
    | some _ => visitMany reg (reg.length + 1) [] [t] []
  | none => visitMany reg (reg.length + 1) [] (reg.map (fun m => m.name)) []

/-! ## Execution driver (`src/regress_stack/__main__.py`)

The driver walks a resolved order.  A module handle exposes an optional
`setup` attribute (its invocation either returns or raises, abstracted by an
`Except` result), a `LOGS` list of declared log paths, and
`TEST_INCLUDE_REGEXES` / `TEST_EXCLUDE_REGEXES` filter lists. -/

/-- An element of a resolved execution order, with the attributes the driver
reads from the underlying Python module object (`mod.name`, `mod.module`). -/
structure DModule where
  name : String
  setupAct : Option (Except String Unit)
  logs : List String
  includes : List String
  excludes : List String
deriving Repr

/-- State of one declared log path in the file system: absent, readable, or
present but failing on read (e.g. a permission error raised by `open`). -/
inductive PathState where
  | missing : PathState
  | readable : PathState
  | unreadable : PathState
deriving Repr, DecidableEq

/-- The external world consulted by `collect_logs`: the state of each log
path, and whether the `journalctl` invocation (through `utils.run`, which has
`check=True` and re-raises `CalledProcessError`) exits successfully. -/
structure LogWorld where
  path : String → PathState
  journalOk : Bool

/-- Embeds the body of the per-path loop of `collect_logs`: a path that does
not exist is skipped (`if not log_path.exists(): continue`); reading an
existing path (`_output_log_file`, directly or over a directory's entries)
either succeeds or raises. -/
def readLogPath (w : LogWorld) (p : String) : Except String Unit :=
  match w.path p with
  | .missing => .ok ()
  | .readable => .ok ()
  | .unreadable => .error ("read failed: " ++ p)

/-- Embeds the loop over one module's declared `LOGS` paths. -/
def readLogs (w : LogWorld) : List String → Except String Unit
  | [] => .ok ()
  | p :: ps =>
    match readLogPath w p with
    | .ok _ => readLogs w ps
    | .error e => .error e

/-- Embeds `collect_logs`: iterate the full execution order outputting every
module's declared logs, then run `journalctl` via `utils.run`; `utils.run`
raises `CalledProcessError` on a non-zero exit (`check=True`).  There is no
exception handler anywhere in `collect_logs`. -/
def collectLogs (w : LogWorld) : List DModule → Except String Unit
  | [] => if w.journalOk then .ok () else .error "CalledProcessError: journalctl"
  | m :: rest =>
    match readLogs w m.logs with
    | .ok _ => collectLogs w rest
    | .error e => .error e

/-- Observable state threaded through a setup run: the Completion Markers on
disk (by module name), the trace of setup actions invoked, and whether log
collection was triggered. -/
structure RunState where
  markers : List String
  invoked : List String
  logsCollected : Bool
deriving Repr

/-- Embeds `utils.mark_setup`: touching the marker file is idempotent on the
set of existing markers. -/
def markSetup (markers : List String) (n : String) : List String :=
  if n ∈ markers then markers else markers ++ [n]

/-- Embeds `setup` of `src/regress_stack/__main__.py`: for each module of the
resolved order, if it exposes a `setup` attribute the action is invoked and,
when it returns without error, a Completion Marker is recorded
(`utils.mark_setup`).  The first raising action aborts the walk: the
surrounding `except` block runs `collect_logs()` over the full order and
re-raises; an exception escaping `collect_logs` itself replaces the
re-raised one.  `fullOrder` is the target-less execution order used by
`collect_logs`. -/
def runSetup (fullOrder : List DModule) (w : LogWorld) :
    List DModule → RunState → Except String Unit × RunState
  | [], st => (.ok (), st)
  | m :: rest, st =>
    match m.setupAct with
    | none => runSetup fullOrder w rest st
    | some (.ok _) =>
      runSetup fullOrder w rest
        { st with
          invoked := st.invoked ++ [m.name]
          markers := markSetup st.markers m.name }
    | some (.error e) =>
      match collectLogs w fullOrder with
      | .ok _ =>
        (.error e, { st with invoked := st.invoked ++ [m.name], logsCollected := true })
      | .error e2 =>
        (.error e2, { st with invoked := st.invoked ++ [m.name], logsCollected := true })

/-! ## Test phase (`test` of `src/regress_stack/__main__.py`) -/

/-- Embeds the selection loop of `test`: modules whose Completion Marker is
absent are skipped (collected in the first component, mirroring the
`LOG.info("Skipping ...")` branch); a set-up module with an empty
`TEST_INCLUDE_REGEXES` list is passed over without contributing
(`if not includes_regexes: continue`); otherwise its include and exclude
lists are appended to `test_regexes` (the second component). -/
def testScan (markers : List String) :
    List DModule → List String × List (List String × List String)
  | [] => ([], [])
  | m :: rest =>
    if m.name ∈ markers then
      if m.includes.isEmpty then testScan markers rest
      else ((testScan markers rest).1, (m.includes, m.excludes) :: (testScan markers rest).2)
    else ((m.name :: (testScan markers rest).1), (testScan markers rest).2)

/-- Embeds Python's `sep.join(parts)`. -/
def pyJoin (sep : String) : List String → String
  | [] => ""
  | a :: as => as.foldl (fun acc x => acc ++ sep ++ x) a

/-- Embeds the `global_include_regex` list of `test`: it starts as
`["smoke"]` and each collected module appends the pipe-join of its include
list. -/
def globalIncludeList (markers : List String) (order : List DModule) : List String :=
  "smoke" :: (testScan markers order).2.map (fun p => pyJoin "|" p.1)

/-- Embeds the `global_exclude_regex` list of `test`. -/
def globalExcludeList (markers : List String) (order : List DModule) : List String :=
  (testScan markers order).2.map (fun p => pyJoin "|" p.2)

/-- Embeds the `--regex` argument handed to the external test harness:
`"|".join(global_include_regex)`. -/
def combinedInclude (markers : List String) (order : List DModule) : String :=
  pyJoin "|" (globalIncludeList markers order)

/-- Embeds the `--exclude-regex` argument handed to the external test
harness. -/
def combinedExclude (markers : List String) (order : List DModule) : String :=
  pyJoin "|" (globalExcludeList markers order)

/-! ## Completion Markers (`mark_setup` / `is_setup_done` in
`src/regress_stack/core/utils.py`)

The file system is modelled as the list of existing file paths. -/

/-- Embeds `REGRESS_STACK_DIR = pathlib.Path("/var/lib/regress-stack/")`. -/
def regressStackDir : String := "/var/lib/regress-stack/"

/-- Embeds `REGRESS_STACK_DIR / (name + ".setup")`. -/
def markerFile (n : String) : String := regressStackDir ++ n ++ ".setup"

/-- Embeds `mark_setup`: `done_file.touch()` creates the marker file if it
does not already exist (directory creation by `mkdir` is not represented in
the file list, which holds only marker files). -/
def markSetupFs (fs : List String) (n : String) : List String :=
  if markerFile n ∈ fs then fs else fs ++ [markerFile n]

/-- Embeds `is_setup_done`: `done_file.exists()`. -/
def isSetupDone (fs : List String) (n : String) : Bool :=
  decide (markerFile n ∈ fs)

/-! ## Concurrency argument (`concurrency_cb` in
`src/regress_stack/core/utils.py`)

`int(arg)` for a `str` argument is embedded by `pyInt`: CPython strips ASCII
whitespace, accepts one optional sign, and then decimal digits with single
underscores allowed between digits; everything else raises `ValueError`.
(Non-ASCII digits and whitespace also accepted by CPython are not
modelled.) -/

/-- Characters stripped by Python's `int(str)`. -/
def isPySpace (c : Char) : Bool :=
  c = ' ' || c = '\t' || c = '\n' || c = '\r' || c = Char.ofNat 11 || c = Char.ofNat 12

/-- Strips leading and trailing Python whitespace. -/
def trimWs (l : List Char) : List Char :=
  ((l.dropWhile isPySpace).reverse.dropWhile isPySpace).reverse

/-- Validity of the characters after the first digit: digits, with single
underscores allowed only between digits. -/
def validTail : List Char → Bool
  | [] => true
  | c :: cs =>
    if c = '_' then
      match cs with
      | [] => false
      | d :: ds => d.isDigit && validTail ds
    else
      c.isDigit && validTail cs

/-- Validity of an unsigned digit group for Python's `int(str)`. -/
def digitsValid : List Char → Bool
  | [] => false
  | c :: cs => c.isDigit && validTail cs

/-- Decimal value of a digit group, underscores ignored. -/
def decVal (l : List Char) : Nat :=
  (l.filter (fun c => c ≠ '_')).foldl (fun a c => 10 * a + (c.toNat - 48)) 0

/-- Parses a trimmed character list as Python's `int(str)` does. -/
def pyIntCore (l : List Char) : Option Int :=
  match l with
  | [] => none
  | c :: rest =>
    if c = '+' then
      if digitsValid rest then some (decVal rest) else none
    else if c = '-' then
      if digitsValid rest then some (-(decVal rest : Int)) else none
    else if digitsValid l then some (decVal l) else none

/-- Embeds Python's `int(arg)` on a string: `some` the parsed value, `none`
for `ValueError`. -/
def pyInt (s : String) : Option Int :=
  pyIntCore (trimWs s.toList)

/-- Embeds `concurrency_cb`: the sentinel `"auto"` maps to
`math.ceil(cpu_count / 3)` (which is `(cpuCount + 2) / 3` in natural-number
arithmetic), anything else goes through `int(arg)`; `.error ()` stands for
the `ValueError` raised by `int`.  `cpuCount` abstracts
`multiprocessing.cpu_count()`. -/
def concurrencyCb (cpuCount : Nat) (arg : String) : Except Unit Int :=
  if arg = "auto" then .ok ((cpuCount + 2) / 3 : Nat)
  else
    match pyInt arg with
    | some i => .ok i
    | none => .error ()

/-! ## Process environment (`system` in `src/regress_stack/core/utils.py`)

Python objects live on a heap and names hold references: `saved_env =
os.environ` copies the reference, `os.environ.update(env)` mutates the
referenced dict in place, and the restoring `os.environ = saved_env` rebinds
the attribute to the very same object.  The state below carries a heap of
dict objects addressed by index, the address bound to `os.environ`, and the
process working directory (a plain string value, saved and restored by
value through `os.getcwd()` / `os.chdir`). -/

/-- Association-list lookup on a Python dict's items. -/
def lookupKey : List (String × String) → String → Option String
  | [], _ => none
  | (k', v') :: rest, k => if k' = k then some v' else lookupKey rest k

/-- Embeds setting one key of a Python dict: an existing key is overwritten
in place, a new key is appended (insertion order preserved). -/
def setKey : List (String × String) → String → String → List (String × String)
  | [], k, v => [(k, v)]
  | (k', v') :: rest, k, v =>
    if k' = k then (k, v) :: rest else (k', v') :: setKey rest k v

/-- Embeds `dict.update(other)`. -/
def dictUpdate (d : List (String × String)) (e : List (String × String)) :
    List (String × String) :=
  e.foldl (fun acc p => setKey acc p.1 p.2) d

/-- The interpreter state consulted by `utils.system`. -/
structure OsState where
  objects : List (List (String × String))
  environAddr : Nat
  cwd : String

/-- Dereferences a dict address. -/
def getObj (st : OsState) (a : Nat) : List (String × String) :=
  (st.objects[a]?).getD []

/-- Mutates the dict object at an address in place. -/
def setObj (st : OsState) (a : Nat) (d : List (String × String)) : OsState :=
  { st with objects := st.objects.set a d }

/-- Embeds `utils.system`: the command's wait status is abstracted into the
resulting `exitCode`.  `if env:` and `if cwd:` are Python truthiness tests,
false for `None`, for an empty mapping and for an empty string.  `os.system`
does not raise on a non-zero exit status, and the function returns the exit
code unconditionally, so the embedding returns `Int` rather than an
`Except`. -/
def system (envArg : Option (List (String × String))) (cwdArg : Option String)
    (exitCode : Int) (st : OsState) : Int × OsState :=
  let envTruthy : Bool := match envArg with
    | some e => !e.isEmpty
    | none => false
  let cwdTruthy : Bool := match cwdArg with
    | some d => !(d = "")
    | none => false
  let savedEnv : Nat := st.environAddr
  let savedCwd : String := st.cwd
  let st1 :=
    if envTruthy then
      match envArg with
      | some e => setObj st st.environAddr (dictUpdate (getObj st st.environAddr) e)
      | none => st
    else st
  let st2 :=
    if cwdTruthy then
      match cwdArg with
      | some d => { st1 with cwd := d }
      | none => st1
    else st1
  let st3 := if envTruthy then { st2 with environAddr := savedEnv } else st2
  let st4 := if cwdTruthy then { st3 with cwd := savedCwd } else st3
  (exitCode, st4)

/-! ## Derived notions used by the theorems -/

/-- A set of module names closed under the dependency edges of the derived
graph. -/
def ClosedUnder (reg : Reg) (S : List String) : Prop :=
  ∀ a ∈ S, ∀ b, Edge reg a b → b ∈ S

/-- A sequence in which every module's dependencies occur strictly before the
module itself (built up from the right, matching the resolver's append). -/
inductive OrderOK (reg : Reg) : List String → Prop where
  | nil : OrderOK reg []
  | snoc {L : List String} {a : String} (hL : OrderOK reg L)
      (hdeps : ∀ b, Edge reg a b → b ∈ L) : OrderOK reg (L ++ [a])

/-- The trace of setup actions a setup run invokes, read off the order alone:
every module exposing a `setup` attribute is invoked, markers never being
consulted, and the walk stops at the first failing action. -/
def invokedOf : List DModule → List String
  | [] => []
  | m :: rest =>
    match m.setupAct with
    | none => invokedOf rest
    | some (.ok _) => m.name :: invokedOf rest
    | some (.error _) => [m.name]

/-! ## Concrete sample data used by witnesses -/

/-- Sample world in which no declared log path exists and `journalctl`
succeeds. -/
def benignWorld : LogWorld := ⟨fun _ => PathState.missing, true⟩

/-- Sample world in which every log path exists but fails on read. -/
def unreadableWorld : LogWorld := ⟨fun _ => PathState.unreadable, true⟩

/-- Sample world in which `journalctl` exits non-zero. -/
def badJournalWorld : LogWorld := ⟨fun _ => PathState.missing, false⟩

/-- Sample module whose setup action succeeds. -/
def sampleA : DModule := ⟨"alpha", some (Except.ok ()), [], [], []⟩

/-- Sample module whose setup action raises. -/
def sampleB : DModule := ⟨"bravo", some (Except.error "boom"), ["/var/log/bravo/"], [], []⟩

/-- Sample module after the failing one. -/
def sampleC : DModule := ⟨"charlie", some (Except.ok ()), [], [], []⟩

/-- Sample module with no setup attribute. -/
def samplePure : DModule := ⟨"puremarker", none, [], ["inc"], []⟩

/-- Sample registry of the spec's concrete scenario: `A` requires nothing,
`B` requires `A`, `C` requires `B` and optionally the absent `D`. -/
def sampleReg : Reg := [⟨"A", [], []⟩, ⟨"B", ["A"], []⟩, ⟨"C", ["B"], ["D"]⟩]

/-- Rank function witnessing acyclicity of `sampleReg`. -/
def sampleRank (n : String) : Nat :=
  if n = "C" then 2 else if n = "B" then 1 else 0

/-! ## Theorems: Completion Marker store (C7) -/

/-- C7: for every module name `n`, after `mark_setup(n)` the query
`is_setup_done(n)` returns `True`; and `is_setup_done(n)` returns `True`
exactly when the file `n ++ ".setup"` exists under the fixed directory
`/var/lib/regress-stack/` — presence means completed, absence not
completed. -/
theorem mark_setup_roundtrip (fs : List String) (n : String) :
    isSetupDone (markSetupFs fs n) n = true ∧
    (isSetupDone fs n = true ↔ ("/var/lib/regress-stack/" ++ n ++ ".setup") ∈ fs) := by
  constructor
  · unfold isSetupDone markSetupFs
    by_cases h : markerFile n ∈ fs
    · simp [h]
    · simp [h]
  · simp [isSetupDone, markerFile, regressStackDir]

/-! ## Theorems: concurrency argument (C6) -/

/-- Characters accepted as digits are not Python whitespace. -/
lemma not_pyspace_of_digit {c : Char} (h : c.isDigit = true) : isPySpace c = false := by
  have h1 : c ≠ ' ' := by rintro rfl; exact absurd h (by decide)
  have h2 : c ≠ '\t' := by rintro rfl; exact absurd h (by decide)
  have h3 : c ≠ '\n' := by rintro rfl; exact absurd h (by decide)
  have h4 : c ≠ '\r' := by rintro rfl; exact absurd h (by decide)
  have h5 : c ≠ Char.ofNat 11 := by rintro rfl; exact absurd h (by decide)
  have h6 : c ≠ Char.ofNat 12 := by rintro rfl; exact absurd h (by decide)
  simp [isPySpace, h1, h2, h3, h4, h5, h6]

/-- Digit characters are not underscores. -/
lemma ne_underscore_of_digit {c : Char} (h : c.isDigit = true) : c ≠ '_' := by
  rintro rfl; exact absurd h (by decide)

/-- A list free of leading whitespace is untouched by `dropWhile`. -/
lemma dropWhile_eq_self_of_none {p : Char → Bool} :
    ∀ l : List Char, (∀ c ∈ l, p c = false) → l.dropWhile p = l := by
  intro l h
  cases l with
  | nil => rfl
  | cons c cs =>
    rw [List.dropWhile_cons, if_neg]
    simp [h c (List.mem_cons_self c cs)]

/-- Trimming leaves an all-digit list unchanged. -/
lemma trimWs_all_digit {l : List Char} (h : ∀ c ∈ l, c.isDigit = true) : trimWs l = l := by
  unfold trimWs
  rw [dropWhile_eq_self_of_none l (fun c hc => not_pyspace_of_digit (h c hc)),
    dropWhile_eq_self_of_none l.reverse
      (fun c hc => not_pyspace_of_digit (h c (List.mem_reverse.mp hc))),
    List.reverse_reverse]

/-- An all-digit tail is a valid digit-group tail. -/
lemma validTail_all_digit : ∀ l : List Char, (∀ c ∈ l, c.isDigit = true) → validTail l = true := by
  intro l
  induction l with
  | nil => intro _; rfl
  | cons c cs ih =>
    intro h
    have hc := h c (List.mem_cons_self c cs)
    unfold validTail
    rw [if_neg (ne_underscore_of_digit hc)]
    simp [hc, ih (fun x hx => h x (List.mem_cons_of_mem c hx))]

/-- A nonempty all-digit list is a valid digit group. -/
lemma digitsValid_all_digit {c : Char} {cs : List Char}
    (h : ∀ x ∈ c :: cs, x.isDigit = true) : digitsValid (c :: cs) = true := by
  unfold digitsValid
  simp [h c (List.mem_cons_self c cs),
    validTail_all_digit cs (fun x hx => h x (List.mem_cons_of_mem c hx))]

/-- Python's `int` accepts every nonempty string of decimal digits, returning
its decimal value. -/
lemma pyInt_digits {s : String} (hne : s.toList ≠ [])
    (hd : ∀ c ∈ s.toList, c.isDigit = true) :
    pyInt s = some (Int.ofNat (decVal s.toList)) := by
  unfold pyInt
  rw [trimWs_all_digit hd]
  cases hl : s.toList with
  | nil => exact absurd hl hne
  | cons c cs =>
    have hall : ∀ x ∈ c :: cs, x.isDigit = true := hl ▸ hd
    have hc := hall c (List.mem_cons_self c cs)
    simp only [pyIntCore]
    rw [if_neg (by rintro rfl; exact absurd hc (by decide) : c ≠ '+'),
      if_neg (by rintro rfl; exact absurd hc (by decide) : c ≠ '-'),
      if_pos (digitsValid_all_digit hall)]
    rfl

/-- C6 counterexample: `"-5"` is neither `"auto"` nor a string of decimal
digits, yet `concurrency_cb` does not raise `ValueError` on it — `int("-5")`
accepts the sign and returns `-5`. -/
theorem concurrency_cb_cex :
    concurrencyCb 6 "-5" = Except.ok (-5) ∧
    "-5" ≠ "auto" ∧
    ("-5".toList.all Char.isDigit) = false :=
  ⟨rfl, by decide, by decide⟩

/-- C6 amended: `concurrency_cb` maps `"auto"` to the ceiling of
`cpu_count / 3`; it maps every nonempty string of decimal digits to its
decimal value; and it raises `ValueError` exactly on the strings that are
neither `"auto"` nor accepted by Python's `int` (optional surrounding
whitespace, an optional sign, and decimal digits with single underscores
between digits). -/
theorem concurrency_cb_spec (cpuCount : Nat) (s : String) :
    concurrencyCb cpuCount "auto" = Except.ok ((cpuCount + 2) / 3 : Nat) ∧
    (s.toList ≠ [] → (∀ c ∈ s.toList, c.isDigit = true) →
      concurrencyCb cpuCount s = Except.ok (Int.ofNat (decVal s.toList))) ∧
    (concurrencyCb cpuCount s = Except.error () ↔ s ≠ "auto" ∧ pyInt s = none) := by
  refine ⟨rfl, ?_, ?_⟩
  · intro hne hd
    have hsauto : s ≠ "auto" := by
      rintro rfl
      exact absurd (hd 'a' (by decide)) (by decide)
    unfold concurrencyCb
    rw [if_neg hsauto, pyInt_digits hne hd]
  · unfold concurrencyCb
    by_cases hs : s = "auto"
    · subst hs
      simp
    · rw [if_neg hs]
      cases hp : pyInt s with
      | none => simp [hs]
      | some i => simp [hs]

/-- C6 witness: the amended statement evaluated at the values of the
repository's own test (`cpu_count = 126`, `"auto" ↦ 42`, `"51" ↦ 51`,
`"NotInt" ↦ ValueError`). -/
theorem concurrency_cb_spec_witness :
    concurrencyCb 126 "auto" = Except.ok 42 ∧
    concurrencyCb 126 "51" = Except.ok 51 ∧
    concurrencyCb 126 "NotInt" = Except.error () := by
  refine ⟨(concurrency_cb_spec 126 "51").1, ?_, ?_⟩
  · exact (concurrency_cb_spec 126 "51").2.1 (by decide) (by decide)
  · exact (concurrency_cb_spec 126 "NotInt").2.2.mpr ⟨by decide, by decide⟩

/-! ## Theorems: setup driver (C2, C3, C9) -/

/-- A name can be in the marker store after a run only if it was there
initially or belongs to a module of the order whose setup action
succeeded. -/
lemma runSetup_marker_mem (fullOrder : List DModule) (w : LogWorld) :
    ∀ (order : List DModule) (st : RunState) (n : String),
      n ∈ (runSetup fullOrder w order st).2.markers →
      n ∈ st.markers ∨ ∃ m ∈ order, m.name = n ∧ m.setupAct = some (Except.ok ()) := by
  intro order
  induction order with
  | nil =>
    intro st n h
    left
    simpa [runSetup] using h
  | cons m rest ih =>
    intro st n h
    cases hact : m.setupAct with
    | none =>
      simp only [runSetup, hact] at h
      rcases ih _ _ h with h' | ⟨m', hm', hn, ha⟩
      · exact Or.inl h'
      · exact Or.inr ⟨m', List.mem_cons_of_mem m hm', hn, ha⟩
    | some r =>
      cases r with
      | ok u =>
        cases u
        simp only [runSetup, hact] at h
        rcases ih _ _ h with h' | ⟨m', hm', hn, ha⟩
        · unfold markSetup at h'
          by_cases hmem : m.name ∈ st.markers
          · rw [if_pos hmem] at h'
            exact Or.inl h'
          · rw [if_neg hmem] at h'
            rcases List.mem_append.mp h' with h'' | h''
            · exact Or.inl h''
            · exact Or.inr ⟨m, List.mem_cons_self m rest,
                (List.mem_singleton.mp h'').symm, hact⟩
        · exact Or.inr ⟨m', List.mem_cons_of_mem m hm', hn, ha⟩
      | error e =>
        simp only [runSetup, hact] at h
        cases hc : collectLogs w fullOrder with
        | ok u => rw [hc] at h; exact Or.inl h
        | error e2 => rw [hc] at h; exact Or.inl h

/-- C2: a setup run over the resolved order `[A, B, C]` in which `B`'s setup
action raises leaves `A`'s Completion Marker in place, records no marker for
`B` or `C`, never invokes `C`'s setup action, triggers log collection, and
propagates `B`'s original error to the caller (log collection itself
succeeding); in general a marker can be recorded only for a module whose
setup action was invoked and returned without error. -/
theorem setup_failure_scenario (A B C : DModule) (e : String)
    (fullOrder : List DModule) (w : LogWorld)
    (hA : A.setupAct = some (Except.ok ()))
    (hB : B.setupAct = some (Except.error e))
    (hBA : B.name ≠ A.name) (hCA : C.name ≠ A.name) (hCB : C.name ≠ B.name)
    (hlog : collectLogs w fullOrder = Except.ok ()) :
    A.name ∈ (runSetup fullOrder w [A, B, C] ⟨[], [], false⟩).2.markers ∧
    B.name ∉ (runSetup fullOrder w [A, B, C] ⟨[], [], false⟩).2.markers ∧
    C.name ∉ (runSetup fullOrder w [A, B, C] ⟨[], [], false⟩).2.markers ∧
    C.name ∉ (runSetup fullOrder w [A, B, C] ⟨[], [], false⟩).2.invoked ∧
    (runSetup fullOrder w [A, B, C] ⟨[], [], false⟩).2.logsCollected = true ∧
    (runSetup fullOrder w [A, B, C] ⟨[], [], false⟩).1 = Except.error e ∧
    (∀ (order : List DModule) (st : RunState) (n : String),
      n ∈ (runSetup fullOrder w order st).2.markers →
      n ∈ st.markers ∨ ∃ m ∈ order, m.name = n ∧ m.setupAct = some (Except.ok ())) := by
  have hrun : runSetup fullOrder w [A, B, C] ⟨[], [], false⟩
      = (Except.error e, ⟨[A.name], [A.name, B.name], true⟩) := by
    simp [runSetup, hA, hB, hlog, markSetup]
  refine ⟨?_, ?_, ?_, ?_, ?_, ?_, runSetup_marker_mem fullOrder w⟩
  · rw [hrun]; exact List.mem_singleton.mpr rfl
  · rw [hrun]; simp [hBA]
  · rw [hrun]; simp [hCA]
  · rw [hrun]; simp [hCA, hCB]
  · rw [hrun]
  · rw [hrun]

/-- C2 witness: the scenario evaluated on three concrete modules, `bravo`
raising `"boom"`. -/
theorem setup_failure_scenario_witness :
    sampleA.name ∈
      (runSetup [] benignWorld [sampleA, sampleB, sampleC] ⟨[], [], false⟩).2.markers ∧
    sampleC.name ∉
      (runSetup [] benignWorld [sampleA, sampleB, sampleC] ⟨[], [], false⟩).2.invoked ∧
    (runSetup [] benignWorld [sampleA, sampleB, sampleC] ⟨[], [], false⟩).1
      = Except.error "boom" := by
  have h := setup_failure_scenario sampleA sampleB sampleC "boom" [] benignWorld
    rfl rfl (by decide) (by decide) (by decide) rfl
  exact ⟨h.1, h.2.2.2.1, h.2.2.2.2.2.1⟩

/-- C3 counterexample: a module whose Completion Marker already exists in the
initial state is not skipped by the setup run — its setup action is invoked
anyway (the `setup` loop never consults `is_setup_done`). -/
theorem setup_skip_cex :
    "m" ∈ (["m"] : List String) ∧
    (runSetup [] benignWorld [⟨"m", some (Except.ok ()), [], [], []⟩]
      ⟨["m"], [], false⟩).2.invoked = ["m"] :=
  ⟨by decide, rfl⟩

/-- C3 amended: the setup command has no marker-based skip.  The trace of
invoked setup actions is a function of the execution order alone —
`invokedOf`, which invokes every module exposing a setup action up to and
including the first failing one — and is entirely independent of the marker
state; markers are consulted for skipping only by the test phase. -/
theorem setup_invoked_ignores_markers (fullOrder : List DModule) (w : LogWorld) :
    ∀ (order : List DModule) (st : RunState),
      (runSetup fullOrder w order st).2.invoked = st.invoked ++ invokedOf order := by
  intro order
  induction order with
  | nil => intro st; simp [runSetup, invokedOf]
  | cons m rest ih =>
    intro st
    cases hact : m.setupAct with
    | none => simp [runSetup, hact, invokedOf, ih]
    | some r =>
      cases r with
      | ok u => cases u; simp [runSetup, hact, invokedOf, ih]
      | error e2 =>
        cases hc : collectLogs w fullOrder with
        | ok u => simp [runSetup, hact, hc, invokedOf]
        | error e3 => simp [runSetup, hact, hc, invokedOf]

/-- A module of the iterated order whose marker is absent lands in the
skipped list of the test phase. -/
lemma testScan_skipped_mem (markers : List String) :
    ∀ (order : List DModule) (m : DModule), m ∈ order → m.name ∉ markers →
      m.name ∈ (testScan markers order).1 := by
  intro order
  induction order with
  | nil => intro m h; cases h
  | cons x rest ih =>
    intro m hm hnm
    rcases List.mem_cons.mp hm with rfl | hm'
    · simp [testScan, hnm]
    · by_cases h1 : x.name ∈ markers
      · by_cases h2 : x.includes.isEmpty
        · simpa [testScan, h1, h2] using ih m hm' hnm
        · simpa [testScan, h1, h2] using ih m hm' hnm
      · simp only [testScan, if_neg h1]
        exact List.mem_cons_of_mem _ (ih m hm' hnm)

/-- C9: a module without a setup attribute never has a Completion Marker
written during a setup run, even though it appears in the execution order;
consequently the test phase treats it as not set up and skips it. -/
theorem no_setup_attr_no_marker (fullOrder : List DModule) (w : LogWorld)
    (order : List DModule) (st : RunState) (m : DModule)
    (hmem : m ∈ order)
    (hnone : ∀ m' ∈ order, m'.name = m.name → m'.setupAct = none)
    (hinit : m.name ∉ st.markers) :
    m.name ∉ (runSetup fullOrder w order st).2.markers ∧
    m.name ∈ (testScan (runSetup fullOrder w order st).2.markers order).1 := by
  have h1 : m.name ∉ (runSetup fullOrder w order st).2.markers := by
    intro h
    rcases runSetup_marker_mem fullOrder w order st m.name h with h' | ⟨m', hm', hn, ha⟩
    · exact hinit h'
    · rw [hnone m' hm' hn] at ha
      cases ha
  exact ⟨h1, testScan_skipped_mem _ order m hmem h1⟩

/-- C9 witness: a concrete order consisting of one module without a setup
attribute. -/
theorem no_setup_attr_no_marker_witness :
    samplePure.name ∉ (runSetup [] benignWorld [samplePure] ⟨[], [], false⟩).2.markers ∧
    samplePure.name ∈
      (testScan (runSetup [] benignWorld [samplePure] ⟨[], [], false⟩).2.markers
        [samplePure]).1 :=
  no_setup_attr_no_marker [] benignWorld [samplePure] ⟨[], [], false⟩ samplePure
    (List.mem_singleton.mpr rfl)
    (fun m' hm' _ => by rw [List.mem_singleton.mp hm']; rfl)
    (by decide)

/-! ## Theorems: log collection (C4) -/

/-- Reading a list of log paths none of which is unreadable succeeds;
missing paths are skipped. -/
lemma readLogs_ok (w : LogWorld) :
    ∀ ps : List String, (∀ p ∈ ps, w.path p ≠ PathState.unreadable) →
      readLogs w ps = Except.ok () := by
  intro ps
  induction ps with
  | nil => intro _; rfl
  | cons p ps ih =>
    intro h
    have hp := h p (List.mem_cons_self p ps)
    have ih' := ih (fun q hq => h q (List.mem_cons_of_mem p hq))
    cases hw : w.path p with
    | missing => simp [readLogs, readLogPath, hw, ih']
    | readable => simp [readLogs, readLogPath, hw, ih']
    | unreadable => exact absurd hw hp

/-- C4 counterexample: when a declared log path exists but fails on read,
the error raised inside `collect_logs` escapes (there is no handler) and is
the error propagated to the caller, replacing the original setup failure
`"boom"`. -/
theorem collect_logs_mask_cex :
    (runSetup [sampleB] unreadableWorld [sampleB] ⟨[], [], false⟩).1
      = Except.error ("read failed: /var/log/bravo/") ∧
    ("read failed: /var/log/bravo/" : String) ≠ "boom" :=
  ⟨rfl, by decide⟩

/-- C4 amended: log collection is best-effort only with respect to missing
paths — a declared log path that does not exist is silently skipped, and when
no declared path is unreadable and the journal call succeeds, `collect_logs`
returns normally and the original setup failure is the error propagated to
the caller.  (A failing read of an existing path, or a failing journal call,
is not swallowed: see the counterexample.) -/
theorem collect_logs_best_effort (w : LogWorld) (fullOrder : List DModule)
    (hpaths : ∀ m ∈ fullOrder, ∀ p ∈ m.logs, w.path p ≠ PathState.unreadable)
    (hj : w.journalOk = true) :
    collectLogs w fullOrder = Except.ok () ∧
    ∀ (order : List DModule) (st : RunState),
      (runSetup fullOrder w order st).1 = Except.ok () ∨
      ∃ m ∈ order, ∃ e, m.setupAct = some (Except.error e) ∧
        (runSetup fullOrder w order st).1 = Except.error e := by
  have hcoll : collectLogs w fullOrder = Except.ok () := by
    induction fullOrder with
    | nil => simp [collectLogs, hj]
    | cons m rest ih =>
      have hrd : readLogs w m.logs = Except.ok () :=
        readLogs_ok w m.logs (fun p hp => hpaths m (List.mem_cons_self m rest) p hp)
      have ih' := ih (fun m' hm' p hp => hpaths m' (List.mem_cons_of_mem m hm') p hp)
      simp [collectLogs, hrd, ih']
  refine ⟨hcoll, ?_⟩
  intro order
  induction order with
  | nil => intro st; left; rfl
  | cons m rest ih =>
    intro st
    cases hact : m.setupAct with
    | none =>
      rcases ih st with h | ⟨m', hm', e, ha, hres⟩
      · left; simpa [runSetup, hact] using h
      · right
        exact ⟨m', List.mem_cons_of_mem m hm', e, ha, by simpa [runSetup, hact] using hres⟩
    | some r =>
      cases r with
      | ok u =>
        cases u
        rcases ih _ with h | ⟨m', hm', e, ha, hres⟩
        · left; simpa [runSetup, hact] using h
        · right
          exact ⟨m', List.mem_cons_of_mem m hm', e, ha,
            by simpa [runSetup, hact] using hres⟩
      | error e =>
        right
        refine ⟨m, List.mem_cons_self m rest, e, hact, ?_⟩
        simp [runSetup, hact, hcoll]

/-- C4 witness: a world in which the only declared log path is missing and
the journal call succeeds; the failing module's own error is the one
propagated. -/
theorem collect_logs_best_effort_witness :
    collectLogs benignWorld [sampleB] = Except.ok () ∧
    ∀ (order : List DModule) (st : RunState),
      (runSetup [sampleB] benignWorld order st).1 = Except.ok () ∨
      ∃ m ∈ order, ∃ e, m.setupAct = some (Except.error e) ∧
        (runSetup [sampleB] benignWorld order st).1 = Except.error e :=
  collect_logs_best_effort benignWorld [sampleB] (by decide) rfl

/-! ## Theorems: test phase selection (C5, C10) -/

/-- C5 counterexample: a module whose Completion Marker is present but whose
include list is empty contributes nothing to the combined test selection —
in particular its exclude expression `"x"` is dropped, not aggregated. -/
theorem test_phase_aggregation_cex :
    "m" ∈ (["m"] : List String) ∧
    (⟨"m", none, [], [], ["x"]⟩ : DModule).excludes = ["x"] ∧
    (testScan ["m"] [⟨"m", none, [], [], ["x"]⟩]).2 = [] ∧
    combinedExclude ["m"] [⟨"m", none, [], [], ["x"]⟩] = "" :=
  ⟨by decide, rfl, rfl, rfl⟩

/-- C5 amended: the test phase skips exactly the modules whose Completion
Marker is absent, and aggregates the include/exclude filter expressions of
exactly those marker-present modules whose include list is nonempty. -/
theorem test_phase_selection_spec (markers : List String) :
    ∀ order : List DModule,
      (testScan markers order).1
        = (order.filter (fun m => decide (m.name ∉ markers))).map (fun m => m.name) ∧
      (testScan markers order).2
        = (order.filter (fun m => decide (m.name ∈ markers) && !m.includes.isEmpty)).map
            (fun m => (m.includes, m.excludes)) := by
  intro order
  induction order with
  | nil => exact ⟨rfl, rfl⟩
  | cons m rest ih =>
    by_cases h1 : m.name ∈ markers
    · by_cases h2 : m.includes.isEmpty
      · simp [testScan, h1, h2, List.filter_cons, ih.1, ih.2]
      · simp [testScan, h1, h2, List.filter_cons, ih.1, ih.2]
    · simp [testScan, h1, List.filter_cons, ih.1, ih.2]

/-- The pipe-join of a list accumulates onto its first element. -/
lemma pyJoin_foldl_structure :
    ∀ (l : List String) (acc : String),
      ∃ t, l.foldl (fun a x => a ++ "|" ++ x) acc = acc ++ t ∧
        (t = "" ∨ ∃ u, t = "|" ++ u) := by
  intro l
  induction l with
  | nil => intro acc; exact ⟨"", by simp, Or.inl rfl⟩
  | cons x xs ih =>
    intro acc
    obtain ⟨t, ht, _⟩ := ih (acc ++ "|" ++ x)
    refine ⟨"|" ++ x ++ t, ?_, Or.inr ⟨x ++ t, by rw [String.append_assoc]⟩⟩
    rw [List.foldl_cons, ht, String.append_assoc, String.append_assoc,
      String.append_assoc]

/-- Dropping a module with an empty include list from anywhere in the order
leaves the collected test selection unchanged. -/
lemma testScan_drop_empty_includes (markers : List String) (m : DModule)
    (hempty : m.includes = []) :
    ∀ xs ys : List DModule,
      (testScan markers (xs ++ m :: ys)).2 = (testScan markers (xs ++ ys)).2 := by
  intro xs
  induction xs with
  | nil =>
    intro ys
    by_cases h1 : m.name ∈ markers
    · simp [testScan, h1, hempty]
    · simp [testScan, h1]
  | cons x xs ih =>
    intro ys
    by_cases h1 : x.name ∈ markers
    · by_cases h2 : x.includes.isEmpty
      · simp [testScan, h1, h2, ih]
      · simp [testScan, h1, h2, ih]
    · simp [testScan, h1, ih]

/-- C10: the combined include regex passed to the test harness always has
`"smoke"` as its first alternative, whatever the marker state and order; and
a module with an empty include list contributes neither include nor exclude
expressions — removing it changes neither the collected selection nor the
combined include/exclude strings. -/
theorem combined_selection_spec (markers : List String) (order xs ys : List DModule)
    (m : DModule) (hempty : m.includes = []) :
    (∃ t, combinedInclude markers order = "smoke" ++ t ∧ (t = "" ∨ ∃ u, t = "|" ++ u)) ∧
    (testScan markers (xs ++ m :: ys)).2 = (testScan markers (xs ++ ys)).2 ∧
    combinedInclude markers (xs ++ m :: ys) = combinedInclude markers (xs ++ ys) ∧
    combinedExclude markers (xs ++ m :: ys) = combinedExclude markers (xs ++ ys) := by
  have hdrop := testScan_drop_empty_includes markers m hempty xs ys
  refine ⟨?_, hdrop, ?_, ?_⟩
  · unfold combinedInclude globalIncludeList pyJoin
    exact pyJoin_foldl_structure _ "smoke"
  · unfold combinedInclude globalIncludeList
    rw [hdrop]
  · unfold combinedExclude globalExcludeList
    rw [hdrop]

/-- C10 witness: the concrete one-module order with an empty include list. -/
theorem combined_selection_spec_witness :
    (∃ t, combinedInclude ["m"] [] = "smoke" ++ t ∧ (t = "" ∨ ∃ u, t = "|" ++ u)) ∧
    (testScan ["m"] ([] ++ (⟨"m", none, [], [], ["x"]⟩ : DModule) :: [])).2
      = (testScan ["m"] ([] ++ [])).2 ∧
    combinedInclude ["m"] ([] ++ (⟨"m", none, [], [], ["x"]⟩ : DModule) :: [])
      = combinedInclude ["m"] ([] ++ []) ∧
    combinedExclude ["m"] ([] ++ (⟨"m", none, [], [], ["x"]⟩ : DModule) :: [])
      = combinedExclude ["m"] ([] ++ []) :=
  combined_selection_spec ["m"] [] [] [] ⟨"m", none, [], [], ["x"]⟩ rfl

/-! ## Theorems: process environment (C8) -/

/-- Setting a key makes it found with its value. -/
lemma lookupKey_setKey_self :
    ∀ (d : List (String × String)) (k v : String),
      lookupKey (setKey d k v) k = some v := by
  intro d
  induction d with
  | nil => intro k v; simp [setKey, lookupKey]
  | cons p rest ih =>
    intro k v
    obtain ⟨k', v'⟩ := p
    by_cases h : k' = k
    · simp [setKey, h, lookupKey]
    · simp [setKey, h, lookupKey, ih]

/-- Setting a key leaves other keys unchanged. -/
lemma lookupKey_setKey_other :
    ∀ (d : List (String × String)) (k v k' : String), k' ≠ k →
      lookupKey (setKey d k v) k' = lookupKey d k' := by
  intro d
  induction d with
  | nil =>
    intro k v k' h
    have h' : ¬(k = k') := fun hh => h hh.symm
    simp [setKey, lookupKey, h']
  | cons p rest ih =>
    intro k v k' h
    obtain ⟨k0, v0⟩ := p
    by_cases h0 : k0 = k
    · have h' : ¬(k = k') := fun hh => h hh.symm
      simp [setKey, h0, lookupKey, h']
    · simp [setKey, h0, lookupKey, ih _ _ _ h]

/-- Updating with keys not containing `k` leaves `k`'s binding unchanged. -/
lemma lookupKey_dictUpdate_not_mem :
    ∀ (e d : List (String × String)) (k : String), k ∉ e.map Prod.fst →
      lookupKey (dictUpdate d e) k = lookupKey d k := by
  intro e
  induction e with
  | nil => intro d k _; rfl
  | cons q rest ih =>
    intro d k hk
    rw [List.map_cons, List.mem_cons] at hk
    push_neg at hk
    have : dictUpdate d (q :: rest) = dictUpdate (setKey d q.1 q.2) rest := by
      simp [dictUpdate]
    rw [this, ih _ _ hk.2, lookupKey_setKey_other _ _ _ _ hk.1]

/-- After `dict.update(e)` with duplicate-free keys, every entry of `e` is
bound to its value. -/
lemma lookupKey_dictUpdate_mem :
    ∀ (e d : List (String × String)), (e.map Prod.fst).Nodup →
      ∀ p ∈ e, lookupKey (dictUpdate d e) p.1 = some p.2 := by
  intro e
  induction e with
  | nil => intro d _ p hp; cases hp
  | cons q rest ih =>
    intro d hnd p hp
    rw [List.map_cons, List.nodup_cons] at hnd
    have hstep : dictUpdate d (q :: rest) = dictUpdate (setKey d q.1 q.2) rest := by
      simp [dictUpdate]
    rcases List.mem_cons.mp hp with rfl | hp'
    · rw [hstep, lookupKey_dictUpdate_not_mem rest _ p.1 hnd.1, lookupKey_setKey_self]
    · rw [hstep]
      exact ih _ hnd.2 p hp'

/-- C8: after `system(cmd, env, cwd)` returns, the working directory is
restored to its pre-call value, but for every non-empty `env` mapping the
entries of `env` remain in the environment dict afterwards — the saved
reference aliases the live environment object, so the restoring assignment
rebinds the same address and the mutation persists.  The call returns the
command's exit code; it does not raise on a non-zero code (the embedding's
result type carries no error case). -/
theorem system_env_persists (e : List (String × String)) (cwdArg : Option String)
    (exitCode : Int) (st : OsState)
    (hne : e ≠ [])
    (hkeys : (e.map Prod.fst).Nodup)
    (haddr : st.environAddr < st.objects.length) :
    (system (some e) cwdArg exitCode st).1 = exitCode ∧
    (system (some e) cwdArg exitCode st).2.cwd = st.cwd ∧
    (system (some e) cwdArg exitCode st).2.environAddr = st.environAddr ∧
    ∀ p ∈ e,
      lookupKey
        (getObj (system (some e) cwdArg exitCode st).2
          (system (some e) cwdArg exitCode st).2.environAddr) p.1 = some p.2 := by
  have het : (!e.isEmpty) = true := by
    cases e with
    | nil => exact absurd rfl hne
    | cons a as => rfl
  have hsys : system (some e) cwdArg exitCode st
      = (exitCode,
          ⟨st.objects.set st.environAddr (dictUpdate (getObj st st.environAddr) e),
            st.environAddr, st.cwd⟩) := by
    cases cwdArg with
    | none => simp [system, setObj, het]
    | some d =>
      by_cases hd : d = ""
      · simp [system, setObj, het, hd]
      · simp [system, setObj, het, hd]
  rw [hsys]
  refine ⟨rfl, rfl, rfl, ?_⟩
  intro p hp
  have hget :
      getObj
        (⟨st.objects.set st.environAddr (dictUpdate (getObj st st.environAddr) e),
          st.environAddr, st.cwd⟩ : OsState) st.environAddr
        = dictUpdate (getObj st st.environAddr) e := by
    unfold getObj
    rw [List.getElem?_set_self haddr]
    rfl
  rw [hget]
  exact lookupKey_dictUpdate_mem e _ hkeys p hp

/-- C8 witness: the values of the repository's own test — `env = ("a", "A")`,
`cwd = "/non-existent"`, exit status mapped to `42`. -/
theorem system_env_persists_witness :
    (system (some [("a", "A")]) (some "/non-existent") 42
      ⟨[[("b", "B")]], 0, "/root"⟩).1 = 42 ∧
    (system (some [("a", "A")]) (some "/non-existent") 42
      ⟨[[("b", "B")]], 0, "/root"⟩).2.cwd = "/root" ∧
    (system (some [("a", "A")]) (some "/non-existent") 42
      ⟨[[("b", "B")]], 0, "/root"⟩).2.environAddr = 0 ∧
    ∀ p ∈ [("a", "A")],
      lookupKey
        (getObj (system (some [("a", "A")]) (some "/non-existent") 42
            ⟨[[("b", "B")]], 0, "/root"⟩).2
          (system (some [("a", "A")]) (some "/non-existent") 42
            ⟨[[("b", "B")]], 0, "/root"⟩).2.environAddr) p.1 = some p.2 :=
  system_env_persists [("a", "A")] (some "/non-existent") 42
    ⟨[[("b", "B")]], 0, "/root"⟩ (by decide) (by decide) (by decide)

/-! ## Theorems: dependency resolver (C1) -/

/-- A successful lookup returns a member of the registry bearing the looked-up
name. -/
lemma lookupMod_mem {reg : Reg} {n : String} {m : Module}
    (h : lookupMod reg n = some m) : m ∈ reg ∧ m.name = n := by
  unfold lookupMod at h
  refine ⟨List.mem_of_find?_eq_some h, ?_⟩
  have := List.find?_some h
  simpa using this

/-- With duplicate-free names, lookup finds each member itself. -/
lemma lookupMod_of_mem {reg : Reg} (hnd : (reg.map Module.name).Nodup) {m : Module}
    (hm : m ∈ reg) : lookupMod reg m.name = some m := by
  induction reg with
  | nil => cases hm
  | cons m0 rest ih =>
    rw [List.map_cons, List.nodup_cons] at hnd
    rcases List.mem_cons.mp hm with rfl | hm'
    · unfold lookupMod
      simp [List.find?_cons]
    · have hne : (m0.name == m.name) = false := by
        rw [beq_eq_false_iff_ne]
        intro hcontra
        exact hnd.1 (hcontra ▸ List.mem_map_of_mem Module.name hm')
      unfold lookupMod at ih ⊢
      rw [List.find?_cons, hne]
      exact ih hnd.2 hm'

/-- The edge relation in terms of registry members and their dependency
names. -/
lemma edge_iff {reg : Reg} {a b : String} :
    Edge reg a b ↔ ∃ m ∈ reg, m.name = a ∧ b ∈ depNames reg m := by
  unfold Edge edgeList
  simp only [List.mem_flatMap, List.mem_map]
  constructor
  · rintro ⟨m, hm, d, hd, heq⟩
    obtain ⟨h1, h2⟩ := Prod.mk.injEq .. ▸ heq
    exact ⟨m, hm, h1, h2 ▸ hd⟩
  · rintro ⟨m, hm, h1, h2⟩
    exact ⟨m, hm, b, h2, by rw [h1]⟩

/-- Every dependency name of a registry member is an edge target. -/
lemma edge_of_dep {reg : Reg} {m : Module} {b : String} (hm : m ∈ reg)
    (hb : b ∈ depNames reg m) : Edge reg m.name b :=
  edge_iff.mpr ⟨m, hm, rfl, hb⟩

/-- With duplicate-free names, every edge out of a name is a dependency name
of the module the lookup finds. -/
lemma dep_of_edge {reg : Reg} (hnd : (reg.map Module.name).Nodup) {a b : String}
    {m : Module} (hl : lookupMod reg a = some m) (he : Edge reg a b) :
    b ∈ depNames reg m := by
  rcases edge_iff.mp he with ⟨m', hm', hname, hb⟩
  have h2 : lookupMod reg a = some m' := hname ▸ lookupMod_of_mem hnd hm'
  rw [hl] at h2
  cases h2
  exact hb

/-- A closed set containing a point contains everything reachable from it. -/
lemma mem_of_reach_closed {reg : Reg} {S : List String} {a b : String}
    (hS : ClosedUnder reg S) (ha : a ∈ S)
    (h : Relation.ReflTransGen (Edge reg) a b) : b ∈ S := by
  induction h with
  | refl => exact ha
  | tail _ hbc ih => exact hS _ ih _ hbc

/-- Decomposing a snoc list around a distinguished element. -/
lemma snoc_decomp {α : Type} (L : List α) (x : α) (l1 : List α) (a : α) (l2 : List α)
    (h : L ++ [x] = l1 ++ a :: l2) :
    (l2 = [] ∧ l1 = L ∧ a = x) ∨ ∃ l2', l2 = l2' ++ [x] ∧ L = l1 ++ a :: l2' := by
  cases l2 using List.reverseRecOn with
  | nil =>
    have h' : L ++ [x] = l1 ++ [a] := by simpa using h
    have h2 := List.append_inj' h' rfl
    have hxa : x = a := by simpa using h2.2
    exact Or.inl ⟨rfl, h2.1.symm, hxa.symm⟩
  | append_singleton l2' y =>
    have h' : L ++ [x] = (l1 ++ a :: l2') ++ [y] := by simpa using h
    have h2 := List.append_inj' h' rfl
    have hxy : x = y := by simpa using h2.2
    refine Or.inr ⟨l2', ?_, h2.1⟩
    rw [hxy]

/-- The ordering invariant implies the positional statement: each member's
dependencies occur strictly earlier. -/
lemma orderOK_spec {reg : Reg} {L : List String} (h : OrderOK reg L) :
    ∀ (l1 : List String) (a : String) (l2 : List String), L = l1 ++ a :: l2 →
      ∀ b, Edge reg a b → b ∈ l1 := by
  induction h with
  | nil =>
    intro l1 a l2 h
    exact absurd h.symm (by simp)
  | @snoc L' a' _ hdeps ih =>
    intro l1 a l2 hdec b hb
    rcases snoc_decomp L' a' l1 a l2 hdec with ⟨_, rfl, rfl⟩ | ⟨l2', _, hL'⟩
    · exact hdeps b hb
    · exact ih l1 a l2' hL' b hb

/-- Soundness invariants of the depth-first visit: on success the output
grows by exactly the freshly visited modules, contains the whole worklist,
adds only modules reachable from the worklist, stays duplicate-free, never
acquires a module still being visited, stays closed under dependency edges,
and keeps every module after its dependencies. -/
lemma visitMany_ok_inv (reg : Reg) (hnd : (reg.map Module.name).Nodup) :
    ∀ (fuel : Nat) (ns visiting out out' : List String),
      visitMany reg fuel visiting ns out = .ok out' →
      (∃ ext, out' = out ++ ext) ∧
      (∀ n ∈ ns, n ∈ out') ∧
      (∀ x ∈ out', x ∈ out ∨ ∃ n ∈ ns, Relation.ReflTransGen (Edge reg) n x) ∧
      (out.Nodup → out'.Nodup) ∧
      (∀ v ∈ visiting, v ∉ out → v ∉ out') ∧
      (ClosedUnder reg out → ClosedUnder reg out') ∧
      (OrderOK reg out → OrderOK reg out') := by
  intro fuel
  induction fuel with
  | zero =>
    intro ns visiting out out' h
    cases ns with
    | nil =>
      simp [visitMany] at h
      subst h
      exact ⟨⟨[], by simp⟩, by simp, fun x hx => Or.inl hx, id,
        fun v _ hvo => hvo, id, id⟩
    | cons n rest => simp [visitMany] at h
  | succ fuel ihf =>
    intro ns
    induction ns with
    | nil =>
      intro visiting out out' h
      simp [visitMany] at h
      subst h
      exact ⟨⟨[], by simp⟩, by simp, fun x hx => Or.inl hx, id,
        fun v _ hvo => hvo, id, id⟩
    | cons n rest ihn =>
      intro visiting out out' h
      by_cases h1 : n ∈ out
      · have hstep : visitMany reg (fuel + 1) visiting (n :: rest) out
            = visitMany reg (fuel + 1) visiting rest out := by
          rw [visitMany]; simp [h1]
        rw [hstep] at h
        obtain ⟨S1, S2, S3, S4, S5, S6, S7⟩ := ihn visiting out out' h
        refine ⟨S1, ?_, ?_, S4, S5, S6, S7⟩
        · intro x hx
          rcases List.mem_cons.mp hx with rfl | hx'
          · obtain ⟨ext, hext⟩ := S1
            rw [hext]
            exact List.mem_append_left _ h1
          · exact S2 x hx'
        · intro x hx
          rcases S3 x hx with h' | ⟨n', hn', hr⟩
          · exact Or.inl h'
          · exact Or.inr ⟨n', List.mem_cons_of_mem n hn', hr⟩
      · by_cases h2 : n ∈ visiting
        · have hstep : visitMany reg (fuel + 1) visiting (n :: rest) out
              = .error (.cyclicDependency (n :: visiting)) := by
            rw [visitMany]; simp [h1, h2]
          rw [hstep] at h
          simp at h
        · cases hlk : lookupMod reg n with
          | none =>
            have hstep : visitMany reg (fuel + 1) visiting (n :: rest) out
                = .error (.missingDependency n) := by
              rw [visitMany]; simp [h1, h2, hlk]
            rw [hstep] at h
            simp at h
          | some m =>
            cases hrec : visitMany reg fuel (n :: visiting) (depNames reg m) out with
            | error e =>
              have hstep : visitMany reg (fuel + 1) visiting (n :: rest) out
                  = .error e := by
                rw [visitMany]; simp [h1, h2, hlk, hrec]
              rw [hstep] at h
              simp at h
            | ok out2 =>
              have hstep : visitMany reg (fuel + 1) visiting (n :: rest) out
                  = visitMany reg (fuel + 1) visiting rest (out2 ++ [n]) := by
                rw [visitMany]; simp [h1, h2, hlk, hrec]
              rw [hstep] at h
              obtain ⟨hm_reg, hm_name⟩ := lookupMod_mem hlk
              obtain ⟨D1, D2, D3, D4, D5, D6, D7⟩ :=
                ihf (depNames reg m) (n :: visiting) out out2 hrec
              obtain ⟨S1, S2, S3, S4, S5, S6, S7⟩ := ihn visiting (out2 ++ [n]) out' h
              have hn_not2 : n ∉ out2 := D5 n (List.mem_cons_self n visiting) h1
              have hpre : ∀ x ∈ out2 ++ [n], x ∈ out' := by
                obtain ⟨ext, hext⟩ := S1
                intro x hx
                rw [hext]
                exact List.mem_append_left _ hx
              have hedge_n : ∀ b, Edge reg n b → b ∈ depNames reg m :=
                fun b hb => dep_of_edge hnd hlk hb
              refine ⟨?_, ?_, ?_, ?_, ?_, ?_, ?_⟩
              · obtain ⟨d, hd⟩ := D1
                obtain ⟨s, hs⟩ := S1
                exact ⟨d ++ [n] ++ s, by rw [hs, hd]; simp⟩
              · intro x hx
                rcases List.mem_cons.mp hx with rfl | hx'
                · exact hpre x (List.mem_append_right _ (List.mem_singleton.mpr rfl))
                · exact S2 x hx'
              · intro x hx
                rcases S3 x hx with hx2 | ⟨n', hn', hr⟩
                · rcases List.mem_append.mp hx2 with hx3 | hx3
                  · rcases D3 x hx3 with hx4 | ⟨d, hd, hr⟩
                    · exact Or.inl hx4
                    · refine Or.inr ⟨n, List.mem_cons_self n rest, ?_⟩
                      exact Relation.ReflTransGen.head
                        (hm_name ▸ edge_of_dep hm_reg hd) hr
                  · rw [List.mem_singleton] at hx3
                    refine Or.inr ⟨n, List.mem_cons_self n rest, ?_⟩
                    rw [hx3]
                · exact Or.inr ⟨n', List.mem_cons_of_mem n hn', hr⟩
              · intro hnd_out
                refine S4 ?_
                rw [List.nodup_append]
                exact ⟨D4 hnd_out, List.nodup_singleton n,
                  fun a ha hb => hn_not2 (List.mem_singleton.mp hb ▸ ha)⟩
              · intro v hv hvout
                have hv2 : v ∉ out2 := D5 v (List.mem_cons_of_mem n hv) hvout
                have hvne : v ≠ n := fun hh => h2 (hh ▸ hv)
                refine S5 v hv ?_
                intro hcon
                rcases List.mem_append.mp hcon with hc | hc
                · exact hv2 hc
                · exact hvne (List.mem_singleton.mp hc)
              · intro hcl
                refine S6 ?_
                intro a ha b hb
                rcases List.mem_append.mp ha with ha' | ha'
                · exact List.mem_append_left _ (D6 hcl a ha' b hb)
                · rw [List.mem_singleton] at ha'
                  subst ha'
                  exact List.mem_append_left _ (D2 b (hedge_n b hb))
              · intro hord
                exact S7 (OrderOK.snoc (D7 hord) (fun b hb => D2 b (hedge_n b hb)))

/-- Totality of the visit: on a registry with duplicate-free names, all
required dependencies present and an acyclic dependency graph, the visit
never reports an error, provided the fuel dominates the number of modules
not yet on the visiting stack, the stack is duplicate-free and consists of
registry names, every worklist name resolves, and every worklist name is
reachable from every stack entry. -/
lemma visitMany_total (reg : Reg) (_hnd : (reg.map Module.name).Nodup)
    (hclosed : ∀ m ∈ reg, ∀ d ∈ depNames reg m, (lookupMod reg d).isSome = true)
    (hacyc : ∀ n, ¬ Relation.TransGen (Edge reg) n n) :
    ∀ (fuel : Nat) (ns visiting out : List String),
      reg.length + 1 ≤ fuel + visiting.length →
      visiting.Nodup →
      (∀ v ∈ visiting, v ∈ reg.map Module.name) →
      (∀ n ∈ ns, (lookupMod reg n).isSome = true) →
      (∀ n ∈ ns, ∀ v ∈ visiting, Relation.TransGen (Edge reg) v n) →
      ∃ L, visitMany reg fuel visiting ns out = .ok L := by
  intro fuel
  induction fuel with
  | zero =>
    intro ns visiting out hfuel hvnd hvsub hns hchain
    cases ns with
    | nil => exact ⟨out, by simp [visitMany]⟩
    | cons n rest =>
      exfalso
      have hlen : visiting.length ≤ (reg.map Module.name).length :=
        (List.subperm_of_subset hvnd hvsub).length_le
      rw [List.length_map] at hlen
      omega
  | succ fuel ihf =>
    intro ns
    induction ns with
    | nil =>
      intro visiting out _ _ _ _ _
      exact ⟨out, by simp [visitMany]⟩
    | cons n rest ihn =>
      intro visiting out hfuel hvnd hvsub hns hchain
      by_cases h1 : n ∈ out
      · obtain ⟨L, hL⟩ := ihn visiting out hfuel hvnd hvsub
          (fun x hx => hns x (List.mem_cons_of_mem n hx))
          (fun x hx => hchain x (List.mem_cons_of_mem n hx))
        refine ⟨L, ?_⟩
        rw [visitMany]
        simpa [h1] using hL
      · by_cases h2 : n ∈ visiting
        · exact absurd (hchain n (List.mem_cons_self n rest) n h2) (hacyc n)
        · cases hlk : lookupMod reg n with
          | none =>
            exact absurd (hns n (List.mem_cons_self n rest)) (by simp [hlk])
          | some m =>
            obtain ⟨hm_reg, hm_name⟩ := lookupMod_mem hlk
            have hdeps : ∃ L2,
                visitMany reg fuel (n :: visiting) (depNames reg m) out = .ok L2 := by
              apply ihf
              · simp only [List.length_cons]
                omega
              · exact List.nodup_cons.mpr ⟨h2, hvnd⟩
              · intro v hv
                rcases List.mem_cons.mp hv with rfl | hv'
                · exact hm_name ▸ List.mem_map_of_mem Module.name hm_reg
                · exact hvsub v hv'
              · intro d hd
                exact hclosed m hm_reg d hd
              · intro d hd v hv
                rcases List.mem_cons.mp hv with rfl | hv'
                · exact Relation.TransGen.single (hm_name ▸ edge_of_dep hm_reg hd)
                · exact Relation.TransGen.tail
                    (hchain n (List.mem_cons_self n rest) v hv')
                    (hm_name ▸ edge_of_dep hm_reg hd)
            obtain ⟨L2, hL2⟩ := hdeps
            obtain ⟨L, hL⟩ := ihn visiting (L2 ++ [n]) hfuel hvnd hvsub
              (fun x hx => hns x (List.mem_cons_of_mem n hx))
              (fun x hx => hchain x (List.mem_cons_of_mem n hx))
            refine ⟨L, ?_⟩
            rw [visitMany]
            simp [h1, h2, hlk, hL2, hL]

/-- A rank function decreasing along edges rules out cycles. -/
lemma acyclic_of_rank {reg : Reg} (rank : String → Nat)
    (h : ∀ a b, Edge reg a b → rank b < rank a) :
    ∀ n, ¬ Relation.TransGen (Edge reg) n n := by
  have key : ∀ a b, Relation.TransGen (Edge reg) a b → rank b < rank a := by
    intro a b htg
    induction htg with
    | single he => exact h _ _ he
    | tail _ he ih => exact lt_trans (h _ _ he) ih
  intro n hn
  exact absurd (key n n hn) (lt_irrefl _)

/-- C1: on a registry with unique names, all required dependencies present
and an acyclic dependency graph, resolving with a target module returns a
sequence consisting exactly of the target's transitive dependency closure
under required and present-optional edges plus the target itself, without
duplicates, with every dependency strictly before each of its dependents,
and ending at the target. -/
theorem resolve_target_correct (reg : Reg) (t : String) (M : Module)
    (hnd : (reg.map Module.name).Nodup)
    (hfound : lookupMod reg t = some M)
    (hreq : ∀ m ∈ reg, ∀ r ∈ m.required, (lookupMod reg r).isSome = true)
    (hacyc : ∀ n, ¬ Relation.TransGen (Edge reg) n n) :
    ∃ L, resolve reg (some t) = .ok L ∧
      (∀ x, x ∈ L ↔ Relation.ReflTransGen (Edge reg) t x) ∧
      L.Nodup ∧
      (∀ (l1 : List String) (a : String) (l2 : List String),
        L = l1 ++ a :: l2 → ∀ b, Edge reg a b → b ∈ l1) ∧
      L.getLast? = some t := by
  have hclosed : ∀ m ∈ reg, ∀ d ∈ depNames reg m, (lookupMod reg d).isSome = true := by
    intro m hm d hd
    unfold depNames at hd
    rcases List.mem_append.mp hd with hd' | hd'
    · exact hreq m hm d hd'
    · exact (List.mem_filter.mp hd').2
  obtain ⟨L, hL⟩ := visitMany_total reg hnd hclosed hacyc (reg.length + 1) [t] [] []
    (by simp) List.nodup_nil (by simp)
    (fun n hn => by rw [List.mem_singleton.mp hn, hfound]; rfl)
    (by simp)
  have hres : resolve reg (some t) = .ok L := by
    simp only [resolve, hfound]
    exact hL
  obtain ⟨_, hmem_t, hreach_out, hnodup, _, hclosed_out, hord⟩ :=
    visitMany_ok_inv reg hnd (reg.length + 1) [t] [] [] L hL
  refine ⟨L, hres, ?_, hnodup List.nodup_nil, orderOK_spec (hord OrderOK.nil), ?_⟩
  · intro x
    constructor
    · intro hx
      rcases hreach_out x hx with hx' | ⟨n', hn', hr⟩
      · exact absurd hx' (List.not_mem_nil x)
      · rw [List.mem_singleton] at hn'
        subst hn'
        exact hr
    · intro hx
      have hcl : ClosedUnder reg L :=
        hclosed_out (fun a ha => absurd ha (List.not_mem_nil a))
      have ht : t ∈ L := hmem_t t (List.mem_singleton.mpr rfl)
      exact mem_of_reach_closed hcl ht hx
  · cases hrec : visitMany reg reg.length [t] (depNames reg M) [] with
    | error e =>
      have hbad : visitMany reg (reg.length + 1) [] [t] [] = .error e := by
        rw [visitMany]
        simp [hfound, hrec]
      rw [hbad] at hL
      simp at hL
    | ok out2 =>
      have hstep : visitMany reg (reg.length + 1) [] [t] []
          = visitMany reg (reg.length + 1) [] [] (out2 ++ [t]) := by
        conv_lhs => rw [visitMany]
        simp [hfound, hrec]
      rw [hstep] at hL
      simp [visitMany] at hL
      rw [← hL, List.getLast?_concat]

/-- C1 witness: the spec's concrete registry (`A` free, `B` requires `A`,
`C` requires `B` and optionally the absent `D`), resolved with target
`"C"`. -/
theorem resolve_target_correct_witness :
    ∃ L, resolve sampleReg (some "C") = .ok L ∧
      (∀ x, x ∈ L ↔ Relation.ReflTransGen (Edge sampleReg) "C" x) ∧
      L.Nodup ∧
      (∀ (l1 : List String) (a : String) (l2 : List String),
        L = l1 ++ a :: l2 → ∀ b, Edge sampleReg a b → b ∈ l1) ∧
      L.getLast? = some "C" := by
  have hacyc : ∀ n, ¬ Relation.TransGen (Edge sampleReg) n n := by
    apply acyclic_of_rank sampleRank
    intro a b h
    have hedges : edgeList sampleReg = [("B", "A"), ("C", "B")] := by decide
    unfold Edge at h
    rw [hedges] at h
    simp only [List.mem_cons, List.mem_singleton, Prod.mk.injEq] at h
    rcases h with ⟨rfl, rfl⟩ | ⟨⟨rfl, rfl⟩ | hfalse⟩
    · decide
    · decide
    · exact absurd hfalse (List.not_mem_nil _)
  exact resolve_target_correct sampleReg "C" ⟨"C", ["B"], ["D"]⟩
    (by decide) (by decide) (by decide) hacyc

end RegressStack
